import Mathlib

/-!
Verification development for the sentiment-analysis pipeline of
src/app_utils.py (class SentimentAnalysisApp and module helpers).

The Python functions relevant to the frozen claims are shallowly embedded
below. Conventions of the embedding:

* Python strings are Lean String values; Python str.strip and str.lower are
  modelled over the underlying character list (pyStrip, pyLower).
* A tabular cell that pandas reads as missing (NaN) is modelled as an
  Option String value of none; Python str() applied to such a cell yields
  the string "nan" (cellStr).
* Python dicts keyed by strings are modelled as association lists in
  insertion order (dictUpd performs the in-place-or-append update of
  d[k] = v, and of defaultdict access).
* Python floats are modelled as exact rationals; round() is modelled as
  round-half-even on exact rationals (roundHalfEven, pyRound).
* The thread pool of calculate_sentiments is modelled by its deterministic
  denotation: every batch is scored by the pure scorer and the results are
  reassembled in original batch order, exactly as the as_completed loop
  stores each result at its submission index.  The VADER scorer itself
  (get_sentiment_score) is an external collaborator and enters as a
  function parameter score : String -> Rat giving the compound value.
-/

/-! ## Python string primitives -/

/-- The whitespace characters stripped by Python str.strip() (ASCII range,
which is what the source data contains). -/
def isPySpace (c : Char) : Bool :=
  c == ' ' || c == '\t' || c == '\n' || c == '\r' || c == '\x0b' || c == '\x0c'

/-- Python str.strip() on a character list: drop whitespace from the front,
then from the back. -/
def pyStripList (l : List Char) : List Char :=
  ((l.dropWhile isPySpace).reverse.dropWhile isPySpace).reverse

/-- Python str.strip(). -/
def pyStrip (s : String) : String :=
  (pyStripList s.toList).asString

/-- Python str.lower() (character-wise, matching Python on ASCII data). -/
def pyLower (s : String) : String :=
  (s.toList.map Char.toLower).asString

/-- Python str.replace for the single-character replacement
basename.replace with arguments a dot and an underscore, used by
get_cache_filename. -/
def pyReplaceDotUnderscore (s : String) : String :=
  (s.toList.map (fun c => if c = '.' then '_' else c)).asString

/-- os.path.basename: the part of the path after the last slash. -/
def osBasename (p : String) : String :=
  ((p.toList.reverse.takeWhile (fun c => c ≠ '/')).reverse).asString

/-- os.path.join for the one shape the cache code uses (directory, name). -/
def pathJoin (dir name : String) : String :=
  dir ++ "/" ++ name

theorem length_pyStrip (s : String) : (pyStrip s).length = (pyStripList s.toList).length := by
  simp [pyStrip, String.length, List.asString]

theorem dropWhile_head_not {p : Char → Bool} :
    ∀ {l a t}, List.dropWhile p l = a :: t → p a = false := by
  intro l
  induction l with
  | nil => intro a t h; simp at h
  | cons b l ih =>
    intro a t h
    rw [List.dropWhile_cons] at h
    by_cases hb : p b
    · exact ih (by simpa [hb] using h)
    · obtain ⟨rfl, rfl⟩ : b = a ∧ l = t := by simpa [hb] using h
      simpa using hb

theorem dropWhile_eq_self_of_head {p : Char → Bool} {l : List Char}
    (h : ∀ a t, l = a :: t → p a = false) : List.dropWhile p l = l := by
  cases l with
  | nil => simp
  | cons a t => rw [List.dropWhile_cons, h a t rfl]; simp

theorem getLast?_dropWhile {p : Char → Bool} :
    ∀ {l : List Char}, List.dropWhile p l ≠ [] →
      (List.dropWhile p l).getLast? = l.getLast? := by
  intro l
  induction l with
  | nil => intro h; simp at h
  | cons a t ih =>
    intro h
    by_cases ha : p a
    · rw [List.dropWhile_cons, if_pos ha] at h ⊢
      cases t with
      | nil => simp [List.dropWhile] at h
      | cons b t' => rw [ih h, List.getLast?_cons_cons]
    · rw [List.dropWhile_cons, if_neg (by simpa using ha)]

theorem pyStripList_idem (l : List Char) : pyStripList (pyStripList l) = pyStripList l := by
  unfold pyStripList
  generalize hl1 : List.dropWhile isPySpace l = l1
  generalize hl2 : List.dropWhile isPySpace l1.reverse = l2
  have h3 : List.dropWhile isPySpace l2.reverse = l2.reverse := by
    refine dropWhile_eq_self_of_head ?_
    intro a t h
    have hne : l2 ≠ [] := by
      intro he; rw [he] at h; simp at h
    have hlast : l2.getLast? = l1.reverse.getLast? := by
      rw [← hl2]; exact getLast?_dropWhile (hl2 ▸ hne)
    have hhead : l2.reverse.head? = l1.head? := by
      rw [List.head?_reverse, hlast, List.getLast?_reverse]
    rw [h, List.head?_cons] at hhead
    cases hcl1 : l1 with
    | nil => rw [hcl1] at hhead; simp at hhead
    | cons b t' =>
      rw [hcl1] at hhead
      simp only [List.head?_cons, Option.some_inj] at hhead
      subst hhead
      exact dropWhile_head_not (hl1 ▸ hcl1)
  rw [h3, List.reverse_reverse]
  have h4 : List.dropWhile isPySpace l2 = l2 := by
    refine dropWhile_eq_self_of_head ?_
    intro a t h
    exact dropWhile_head_not (hl2 ▸ h)
  rw [h4]

theorem pyStrip_idem (s : String) : pyStrip (pyStrip s) = pyStrip s := by
  unfold pyStrip
  rw [show (pyStripList s.toList).asString.toList = pyStripList s.toList from rfl,
    pyStripList_idem]

/-! ## Python dict as an association list -/

/-- Lookup in an insertion-ordered association list (Python d[k] / k in d). -/
def listLookup {β : Type} (k : String) : List (String × β) → Option β
  | [] => none
  | (k', v) :: t => if k' = k then some v else listLookup k t

/-- The Python dict update d[k] = f(d[k]) when k is present, d[k] = v₀ when
absent (covers plain assignment, the append-to-entry idiom of the corpus
builders and defaultdict access). -/
def dictUpd {β : Type} (d : List (String × β)) (k : String) (f : β → β) (v₀ : β) :
    List (String × β) :=
  match d with
  | [] => [(k, v₀)]
  | (k', v) :: t => if k' = k then (k', f v) :: t else (k', v) :: dictUpd t k f v₀

theorem listLookup_dictUpd_self {β : Type} (d : List (String × β)) (k : String)
    (f : β → β) (v₀ : β) :
    listLookup k (dictUpd d k f v₀) =
      some (match listLookup k d with | some v => f v | none => v₀) := by
  induction d with
  | nil => simp [dictUpd, listLookup]
  | cons e t ih =>
    obtain ⟨k', v⟩ := e
    by_cases h : k' = k
    · subst h; simp [dictUpd, listLookup]
    · simp [dictUpd, listLookup, h, ih]

theorem listLookup_dictUpd_ne {β : Type} (d : List (String × β)) {k k' : String}
    (f : β → β) (v₀ : β) (h : k' ≠ k) :
    listLookup k' (dictUpd d k f v₀) = listLookup k' d := by
  induction d with
  | nil => simp [dictUpd, listLookup, Ne.symm h]
  | cons e t ih =>
    obtain ⟨k'', v⟩ := e
    by_cases h2 : k'' = k
    · subst h2
      simp [dictUpd, listLookup, Ne.symm h]
    · by_cases h3 : k'' = k'
      · subst h3; simp [dictUpd, listLookup, h2]
      · simp [dictUpd, listLookup, h2, h3, ih]

theorem mem_dictUpd_snd {β : Type} {P : β → Prop} {d : List (String × β)} {k : String}
    {f : β → β} {v₀ : β} (hd : ∀ e ∈ d, P e.2) (hf : ∀ v, P v → P (f v)) (h0 : P v₀) :
    ∀ e ∈ dictUpd d k f v₀, P e.2 := by
  induction d with
  | nil => intro e he; simp [dictUpd] at he; subst he; exact h0
  | cons a t ih =>
    obtain ⟨k', v⟩ := a
    intro e he
    simp only [dictUpd] at he
    by_cases h : k' = k
    · rw [if_pos h] at he
      rcases List.mem_cons.mp he with h1 | h1
      · subst h1; exact hf v (hd (k', v) (by simp))
      · exact hd e (List.mem_cons_of_mem _ h1)
    · rw [if_neg h] at he
      rcases List.mem_cons.mp he with h1 | h1
      · subst h1; exact hd (k', v) (by simp)
      · exact ih (fun e' he' => hd e' (List.mem_cons_of_mem _ he')) e h1

theorem listLookup_append {β : Type} (k : String) (d₁ d₂ : List (String × β)) :
    listLookup k (d₁ ++ d₂) =
      (match listLookup k d₁ with | some v => some v | none => listLookup k d₂) := by
  induction d₁ with
  | nil => simp [listLookup]
  | cons e t ih =>
    obtain ⟨k', v⟩ := e
    by_cases h : k' = k
    · subst h; simp [listLookup]
    · simp [listLookup, h, ih]

theorem listLookup_eq_none {β : Type} {k : String} {d : List (String × β)}
    (h : ∀ e ∈ d, e.1 ≠ k) : listLookup k d = none := by
  induction d with
  | nil => rfl
  | cons e t ih =>
    obtain ⟨k', v⟩ := e
    have h1 : k' ≠ k := h (k', v) (by simp)
    simp only [listLookup, if_neg h1]
    exact ih fun e' he' => h e' (List.mem_cons_of_mem _ he')

theorem listLookup_map_snd {β γ : Type} (k : String) (g : β → γ) :
    ∀ d : List (String × β),
      listLookup k (d.map (fun e => (e.1, g e.2))) = (listLookup k d).map g := by
  intro d
  induction d with
  | nil => rfl
  | cons e t ih =>
    obtain ⟨k', v⟩ := e
    by_cases h : k' = k
    · subst h; simp [listLookup]
    · simp [listLookup, h, ih]

theorem listLookup_isSome_of_mem {β : Type} {d : List (String × β)} {e : String × β}
    (h : e ∈ d) : (listLookup e.1 d).isSome := by
  induction d with
  | nil => simp at h
  | cons a t ih =>
    obtain ⟨k', v⟩ := a
    rcases List.mem_cons.mp h with h1 | h1
    · subst h1; simp [listLookup]
    · by_cases h2 : k' = e.1
      · simp [listLookup, h2]
      · simpa [listLookup, h2] using ih h1

/-! ## Column Resolver: SentimentAnalysisApp._find_column_name
(src/app_utils.py lines 383-393) -/

/-- The lowercase-to-original lookup table built by the dict comprehension
lower_names, with the Python semantics that a later header overwrites an
earlier header sharing the same lowercase form. -/
def lowerNames (names : List String) : List (String × String) :=
  names.foldl (fun m n => dictUpd m (pyLower n) (fun _ => n) n) []

/-- SentimentAnalysisApp._find_column_name: try each candidate name in the
given order, return the original-cased header of the first candidate whose
lowercase form is a key of the lookup table, and None when no candidate
matches. -/
def find_column_name (names : List String) (potential_names : List String) :
    Option String :=
  potential_names.findSome? (fun p => listLookup (pyLower p) (lowerNames names))

theorem lowerNames_lookup (names : List String) (key : String) :
    ∀ acc, listLookup key (names.foldl (fun m n => dictUpd m (pyLower n) (fun _ => n) n) acc) =
      (match names.reverse.find? (fun n => pyLower n = key) with
       | some n => some n
       | none => listLookup key acc) := by
  induction names with
  | nil => intro acc; simp
  | cons a t ih =>
    intro acc
    rw [List.foldl_cons, ih, List.reverse_cons, List.find?_append]
    cases hfind : t.reverse.find? (fun n => decide (pyLower n = key)) with
    | some n => simp [hfind]
    | none =>
      by_cases h : pyLower a = key
      · subst h
        have hsingle : List.find? (fun n => decide (pyLower n = pyLower a)) [a] = some a := by
          simp [List.find?]
        rw [hsingle, listLookup_dictUpd_self]
        cases listLookup (pyLower a) acc <;> rfl
      · have hsingle : List.find? (fun n => decide (pyLower n = key)) [a] = none := by
          simp [List.find?, h]
        rw [hsingle, listLookup_dictUpd_ne _ _ _ (Ne.symm h)]
        rfl

theorem find_column_name_none (names : List String) (potential_names : List String) :
    find_column_name names potential_names = none ↔
      ∀ p ∈ potential_names, ∀ n ∈ names, pyLower n ≠ pyLower p := by
  unfold find_column_name
  rw [List.findSome?_eq_none_iff]
  constructor
  · intro h p hp n hn he
    have := h p hp
    rw [lowerNames] at this
    rw [lowerNames_lookup] at this
    cases hf : names.reverse.find? (fun m => pyLower m = pyLower p) with
    | some m => rw [hf] at this; simp at this
    | none =>
      have := List.find?_eq_none.mp hf n (by simpa using hn)
      simp at this
      exact this he
  · intro h p hp
    rw [lowerNames, lowerNames_lookup]
    cases hf : names.reverse.find? (fun m => pyLower m = pyLower p) with
    | some m =>
      have hm := List.find?_some hf
      have hmem : m ∈ names := by
        have := List.mem_of_find?_eq_some hf
        simpa using this
      simp only [decide_eq_true_eq] at hm
      exact absurd hm (h p hp m hmem)
    | none => simp [listLookup]

theorem find_column_name_some {names potential_names : List String} {h : String}
    (hf : find_column_name names potential_names = some h) :
    h ∈ names ∧ ∃ p ∈ potential_names, pyLower h = pyLower p := by
  unfold find_column_name at hf
  obtain ⟨p, hp, hlook⟩ := List.exists_of_findSome?_eq_some hf
  rw [lowerNames, lowerNames_lookup] at hlook
  cases hfind : names.reverse.find? (fun m => pyLower m = pyLower p) with
  | some m =>
    rw [hfind] at hlook
    obtain rfl : m = h := by simpa using hlook
    have hm := List.find?_some hfind
    have hmem : m ∈ names := by
      have := List.mem_of_find?_eq_some hfind
      simpa using this
    simp only [decide_eq_true_eq] at hm
    exact ⟨hmem, p, hp, hm⟩
  | none => rw [hfind] at hlook; simp [listLookup] at hlook

theorem find_column_name_cons_match (names potential_names : List String) (c : String)
    (hmatch : ∃ n ∈ names, pyLower n = pyLower c) :
    ∃ h, find_column_name names (c :: potential_names) = some h ∧
      h ∈ names ∧ pyLower h = pyLower c := by
  have hlift : listLookup (pyLower c) (lowerNames names) ≠ none := by
    rw [lowerNames, lowerNames_lookup]
    cases hf : names.reverse.find? (fun m => pyLower m = pyLower c) with
    | some m => simp
    | none =>
      obtain ⟨n, hn, he⟩ := hmatch
      have := List.find?_eq_none.mp hf n (by simpa using hn)
      simp at this
      exact absurd he this
  cases hlook : listLookup (pyLower c) (lowerNames names) with
  | none => exact absurd hlook hlift
  | some h =>
    refine ⟨h, ?_, ?_⟩
    · unfold find_column_name
      rw [List.findSome?_cons, hlook]
    · have : find_column_name names (c :: potential_names) = some h := by
        unfold find_column_name
        rw [List.findSome?_cons, hlook]
      obtain ⟨hmem, p, hp, hlow⟩ := find_column_name_some this
      rcases List.mem_cons.mp hp with rfl | hp'
      · exact ⟨hmem, hlow⟩
      · constructor
        · exact hmem
        · rw [lowerNames, lowerNames_lookup] at hlook
          cases hf : names.reverse.find? (fun m => pyLower m = pyLower c) with
          | some m =>
            rw [hf] at hlook
            obtain rfl : m = h := by simpa using hlook
            have hm := List.find?_some hf
            simpa using hm
          | none => rw [hf] at hlook; simp [listLookup] at hlook

/-! ## Corpus Builder: the two ingestion paths of
SentimentAnalysisApp._read_file_for_analysis_raw (src/app_utils.py lines
922-989) and the matching grouping of _prepare_products_from_full_data
(lines 878-920).

A Row holds the two resolved cells the builders read (the review-text
column and the product column, as picked by find_column_name on the fixed
candidate lists); a cell is none when pandas read it as NaN. -/

structure Row where
  product : Option String
  review : Option String
deriving DecidableEq, Repr

/-- Python str() applied to a cell: the identity on strings, the string
"nan" on a missing (NaN float) cell. -/
def cellStr : Option String → String
  | some s => s
  | none => "nan"

/-- A ReviewCorpus: product key to list of review texts, in dict insertion
order. -/
abbrev Corpus := List (String × List String)

/-- One row of the chunked path's row loop (lines 950-959): strip the two
cells, and append the review under the product key when the product name is
non-empty, the review text is non-empty and its length exceeds 5.  Rows
failing the test are skipped. -/
def rowStep (products : Corpus) (row : Row) : Corpus :=
  let review_text := pyStrip (cellStr row.review)
  let product_name := pyStrip (cellStr row.product)
  if product_name ≠ "" ∧ review_text ≠ "" ∧ 5 < review_text.length then
    dictUpd products product_name (fun l => l ++ [review_text]) [review_text]
  else products

/-- The slicing review_list with bounds i to i+chunksize for i in range(0, len,
chunksize): split a list into consecutive chunks of size n (fuel-structured
so that it computes; chunksOf below instantiates the fuel). -/
def chunksOfAux {α : Type} (n : ℕ) : ℕ → List α → List (List α)
  | _, [] => []
  | 0, l => [l]
  | fuel + 1, l => l.take n :: chunksOfAux n fuel (l.drop n)

/-- Split a list into consecutive chunks of size n (the final chunk may be
shorter). -/
def chunksOf {α : Type} (n : ℕ) (l : List α) : List (List α) :=
  chunksOfAux n l.length l

/-- The chunked ingestion path (lines 929-963 plus the min_reviews filter of
lines 983-984): fold every chunk's rows through rowStep into one shared
dict, then keep the products with at least min_reviews = 1 reviews. -/
def read_chunked (rows : List Row) : Corpus :=
  let chunks := chunksOf 100000 rows
  let products := chunks.foldl (fun acc chunk => chunk.foldl rowStep acc) []
  products.filter (fun e => 1 ≤ e.2.length)

/-- Byte-order comparison of strings as character lists, the ascending order
pandas sorts group keys by. -/
def charListLe : List Char → List Char → Bool
  | [], _ => true
  | _ :: _, [] => false
  | a :: as, b :: bs => if a < b then true else if b < a then false else charListLe as bs

/-- The sort order of pandas groupby keys. -/
def strLe (a b : String) : Prop := charListLe a.toList b.toList = true

instance : DecidableRel strLe :=
  fun a b => inferInstanceAs (Decidable (charListLe a.toList b.toList = true))

/-- The group keys of df.groupby on the product column: the distinct non-NaN
values of that column, in ascending sorted order (pandas drops NaN group
keys and sorts the remaining keys). -/
def groupKeys (rows : List Row) : List String :=
  List.insertionSort strLe (rows.filterMap (fun row => row.product)).dedup

/-- The review list the in-memory path builds for one group (lines 976-977):
the group's non-NaN review cells in row order, stripped, keeping those that
are non-empty with length above 5. -/
def memReviews (rows : List Row) (p : String) : List String :=
  ((rows.filter (fun row => row.product = some p)).filterMap (fun row => row.review)).filterMap
    (fun r => if pyStrip r ≠ "" ∧ 5 < (pyStrip r).length then some (pyStrip r) else none)

/-- The in-memory ingestion path (lines 964-981 plus the min_reviews filter,
and identically the DataFrame branch of _prepare_products_from_full_data,
lines 882-896): iterate the groups of df.groupby(product_col) in key order,
and store each group's filtered review list under its key when the list is
non-empty. -/
def read_inmemory (rows : List Row) : Corpus :=
  let products := (groupKeys rows).foldl
    (fun acc p =>
      let reviews := memReviews rows p
      if reviews ≠ [] then acc ++ [(p, reviews)] else acc) []
  products.filter (fun e => 1 ≤ e.2.length)

/-- The reviews the chunked path collects for product key k: the per-row
selection rowStep performs, written as one pass. -/
def chunkSel (rows : List Row) (k : String) : List String :=
  rows.filterMap (fun row =>
    if pyStrip (cellStr row.product) = k ∧ pyStrip (cellStr row.product) ≠ "" ∧
        pyStrip (cellStr row.review) ≠ "" ∧ 5 < (pyStrip (cellStr row.review)).length then
      some (pyStrip (cellStr row.review))
    else none)

theorem rowStep_eq (d : Corpus) (row : Row) :
    rowStep d row =
      if pyStrip (cellStr row.product) ≠ "" ∧ pyStrip (cellStr row.review) ≠ "" ∧
          5 < (pyStrip (cellStr row.review)).length then
        dictUpd d (pyStrip (cellStr row.product))
          (fun l => l ++ [pyStrip (cellStr row.review)]) [pyStrip (cellStr row.review)]
      else d := rfl

theorem chunksOfAux_flatten {α : Type} {n : ℕ} (hn : 1 ≤ n) :
    ∀ (fuel : ℕ) (l : List α), l.length ≤ fuel → (chunksOfAux n fuel l).flatten = l := by
  intro fuel
  induction fuel with
  | zero =>
    intro l hl
    have : l = [] := List.eq_nil_of_length_eq_zero (Nat.le_zero.mp hl)
    subst this; rfl
  | succ fuel ih =>
    intro l hl
    cases l with
    | nil => rfl
    | cons a t =>
      have hstep : chunksOfAux n (fuel + 1) (a :: t) =
          (a :: t).take n :: chunksOfAux n fuel ((a :: t).drop n) := rfl
      rw [hstep, List.flatten_cons, ih _ (by rw [List.length_drop]; omega)]
      exact List.take_append_drop n (a :: t)

theorem chunksOf_flatten {α : Type} {n : ℕ} (hn : 1 ≤ n) (l : List α) :
    (chunksOf n l).flatten = l :=
  chunksOfAux_flatten hn l.length l le_rfl

theorem foldl_chunks {α β : Type} (f : β → α → β) :
    ∀ (L : List (List α)) (d : β),
      L.foldl (fun acc c => c.foldl f acc) d = L.flatten.foldl f d := by
  intro L
  induction L with
  | nil => intro d; rfl
  | cons c t ih =>
    intro d
    rw [List.foldl_cons, ih, List.flatten_cons, List.foldl_append]

theorem chunkSel_append (rows₁ rows₂ : List Row) (k : String) :
    chunkSel (rows₁ ++ rows₂) k = chunkSel rows₁ k ++ chunkSel rows₂ k := by
  unfold chunkSel
  exact List.filterMap_append _ _ _

theorem rowStep_lookup (rows : List Row) :
    ∀ (d : Corpus) (k : String),
      listLookup k (rows.foldl rowStep d) =
        (match listLookup k d with
         | some l => some (l ++ chunkSel rows k)
         | none => if chunkSel rows k = [] then none else some (chunkSel rows k)) := by
  induction rows with
  | nil =>
    intro d k
    cases h : listLookup k d <;> simp [h, chunkSel]
  | cons row rows ih =>
    intro d k
    rw [List.foldl_cons, ih]
    by_cases hcond : pyStrip (cellStr row.product) ≠ "" ∧ pyStrip (cellStr row.review) ≠ "" ∧
        5 < (pyStrip (cellStr row.review)).length
    · by_cases hk : pyStrip (cellStr row.product) = k
      · have hstep : rowStep d row =
            dictUpd d k (fun l => l ++ [pyStrip (cellStr row.review)])
              [pyStrip (cellStr row.review)] := by
          rw [rowStep_eq, if_pos hcond, hk]
        have hsel : chunkSel (row :: rows) k =
            pyStrip (cellStr row.review) :: chunkSel rows k := by
          unfold chunkSel
          rw [List.filterMap_cons, if_pos ⟨hk, hcond⟩]
        rw [hstep, hsel, listLookup_dictUpd_self]
        cases hdk : listLookup k d with
        | some l => simp
        | none => simp
      · have hstep : rowStep d row =
            dictUpd d (pyStrip (cellStr row.product))
              (fun l => l ++ [pyStrip (cellStr row.review)])
              [pyStrip (cellStr row.review)] := by
          rw [rowStep_eq, if_pos hcond]
        have hsel : chunkSel (row :: rows) k = chunkSel rows k := by
          unfold chunkSel
          rw [List.filterMap_cons, if_neg (fun hc => hk hc.1)]
        rw [hstep, hsel, listLookup_dictUpd_ne _ _ _ (Ne.symm hk)]
    · have hstep : rowStep d row = d := by
        rw [rowStep_eq, if_neg hcond]
      have hsel : chunkSel (row :: rows) k = chunkSel rows k := by
        unfold chunkSel
        rw [List.filterMap_cons, if_neg (fun hc => hcond hc.2)]
      rw [hstep, hsel]

theorem read_chunked_eq_foldl (rows : List Row) :
    read_chunked rows = (rows.foldl rowStep []).filter (fun e => 1 ≤ e.2.length) := by
  show ((chunksOf 100000 rows).foldl (fun acc chunk => chunk.foldl rowStep acc) []).filter
      (fun e => 1 ≤ e.2.length) = _
  rw [foldl_chunks, chunksOf_flatten (by norm_num)]

theorem foldl_rowStep_values_ne_nil (rows : List Row) :
    ∀ (d : Corpus), (∀ e ∈ d, e.2 ≠ []) → ∀ e ∈ rows.foldl rowStep d, e.2 ≠ [] := by
  induction rows with
  | nil => intro d hd; exact hd
  | cons row rows ih =>
    intro d hd
    rw [List.foldl_cons]
    refine ih _ ?_
    rw [rowStep_eq]
    by_cases hcond : pyStrip (cellStr row.product) ≠ "" ∧ pyStrip (cellStr row.review) ≠ "" ∧
        5 < (pyStrip (cellStr row.review)).length
    · rw [if_pos hcond]
      exact mem_dictUpd_snd (P := fun v => v ≠ []) hd (fun v hv => by simp) (by simp)
    · rw [if_neg hcond]; exact hd

theorem read_chunked_lookup (rows : List Row) (k : String) :
    listLookup k (read_chunked rows) =
      (if chunkSel rows k = [] then none else some (chunkSel rows k)) := by
  rw [read_chunked_eq_foldl]
  have hval : ∀ e ∈ rows.foldl rowStep [], e.2 ≠ [] :=
    foldl_rowStep_values_ne_nil rows [] (by simp)
  have hfilter : (rows.foldl rowStep []).filter (fun e => 1 ≤ e.2.length) =
      rows.foldl rowStep [] := by
    rw [List.filter_eq_self]
    intro e he
    have := hval e he
    simp only [decide_eq_true_eq]
    cases hc : e.2 with
    | nil => exact absurd hc this
    | cons a t => simp
  rw [hfilter, rowStep_lookup rows [] k]
  rfl

theorem inmem_build_lookup (g : String → List String) :
    ∀ (keys : List String) (acc : List (String × List String)) (k : String),
      keys.Nodup → (∀ e ∈ acc, e.1 ∉ keys) →
      listLookup k (keys.foldl
          (fun acc p => if g p ≠ [] then acc ++ [(p, g p)] else acc) acc) =
        (match listLookup k acc with
         | some v => some v
         | none => if k ∈ keys ∧ g k ≠ [] then some (g k) else none) := by
  intro keys
  induction keys with
  | nil =>
    intro acc k hnd hdisj
    cases h : listLookup k acc <;> simp [h]
  | cons p ks ih =>
    intro acc k hnd hdisj
    rw [List.foldl_cons]
    have hnd' : ks.Nodup := (List.nodup_cons.mp hnd).2
    have hpns : p ∉ ks := (List.nodup_cons.mp hnd).1
    by_cases hg : g p ≠ []
    · rw [if_pos hg, ih _ _ hnd' ?hdisj]
      case hdisj =>
        intro e he
        rcases List.mem_append.mp he with h1 | h1
        · exact fun hc => hdisj e h1 (List.mem_cons_of_mem _ hc)
        · obtain rfl : e = (p, g p) := by simpa using h1
          exact hpns
      rw [listLookup_append]
      cases hacc : listLookup k acc with
      | some v => simp
      | none =>
        simp only []
        by_cases hk : p = k
        · subst hk
          have : listLookup p [(p, g p)] = some (g p) := by simp [listLookup]
          rw [this]
          have hmem : p ∈ p :: ks := by simp
          simp [hmem, hg]
        · have : listLookup k [(p, g p)] = none := by simp [listLookup, hk]
          rw [this]
          by_cases hkks : k ∈ ks
          · simp [List.mem_cons, hkks]
          · have h1 : ¬(k ∈ p :: ks ∧ g k ≠ []) := by
              rintro ⟨hc, -⟩
              rcases List.mem_cons.mp hc with rfl | hc'
              · exact hk rfl
              · exact hkks hc'
            have h2 : ¬(k ∈ ks ∧ g k ≠ []) := fun hc => hkks hc.1
            simp only [if_neg h1, if_neg h2]
    · rw [if_neg hg, ih _ _ hnd' (fun e he hc => hdisj e he (List.mem_cons_of_mem _ hc))]
      cases hacc : listLookup k acc with
      | some v => simp
      | none =>
        simp only []
        by_cases hk : p = k
        · subst hk
          have hg' : g p = [] := by simpa using hg
          have h1 : ¬(p ∈ p :: ks ∧ g p ≠ []) := fun hc => hc.2 hg'
          have h2 : ¬(p ∈ ks ∧ g p ≠ []) := fun hc => hc.2 hg'
          simp only [if_neg h1, if_neg h2]
        · by_cases hkks : k ∈ ks
          · simp [List.mem_cons, hkks]
          · have h1 : ¬(k ∈ p :: ks ∧ g k ≠ []) := by
              rintro ⟨hc, -⟩
              rcases List.mem_cons.mp hc with rfl | hc'
              · exact hk rfl
              · exact hkks hc'
            have h2 : ¬(k ∈ ks ∧ g k ≠ []) := fun hc => hkks hc.1
            simp only [if_neg h1, if_neg h2]

theorem groupKeys_nodup (rows : List Row) : (groupKeys rows).Nodup := by
  unfold groupKeys
  exact (List.perm_insertionSort strLe _).nodup_iff.mpr (List.nodup_dedup _)

theorem mem_groupKeys (rows : List Row) (k : String) :
    k ∈ groupKeys rows ↔ k ∈ rows.filterMap (fun row => row.product) := by
  unfold groupKeys
  rw [(List.perm_insertionSort strLe _).mem_iff, List.mem_dedup]

theorem read_inmemory_lookup (rows : List Row) (k : String) :
    listLookup k (read_inmemory rows) =
      (if k ∈ groupKeys rows ∧ memReviews rows k ≠ [] then some (memReviews rows k)
       else none) := by
  unfold read_inmemory
  have hbuild := inmem_build_lookup (memReviews rows) (groupKeys rows) [] k
    (groupKeys_nodup rows) (by simp)
  simp only [listLookup] at hbuild
  have hval : ∀ e ∈ (groupKeys rows).foldl
      (fun acc p => if memReviews rows p ≠ [] then acc ++ [(p, memReviews rows p)] else acc) [],
      e.2 ≠ [] := by
    have : ∀ (keys : List String) (acc : List (String × List String)),
        (∀ e ∈ acc, e.2 ≠ []) → ∀ e ∈ keys.foldl
          (fun acc p => if memReviews rows p ≠ [] then acc ++ [(p, memReviews rows p)] else acc)
          acc, e.2 ≠ [] := by
      intro keys
      induction keys with
      | nil => intro acc hacc; exact hacc
      | cons p ks ih =>
        intro acc hacc
        rw [List.foldl_cons]
        refine ih _ ?_
        by_cases hg : memReviews rows p ≠ []
        · rw [if_pos hg]
          intro e he
          rcases List.mem_append.mp he with h1 | h1
          · exact hacc e h1
          · obtain rfl : e = (p, memReviews rows p) := by simpa using h1
            exact hg
        · rw [if_neg hg]; exact hacc
    exact this (groupKeys rows) [] (by simp)
  have hfilter : ((groupKeys rows).foldl
      (fun acc p => if memReviews rows p ≠ [] then acc ++ [(p, memReviews rows p)] else acc)
        []).filter (fun e => 1 ≤ e.2.length) =
      (groupKeys rows).foldl
        (fun acc p => if memReviews rows p ≠ [] then acc ++ [(p, memReviews rows p)] else acc)
        [] := by
    rw [List.filter_eq_self]
    intro e he
    have := hval e he
    simp only [decide_eq_true_eq]
    cases hc : e.2 with
    | nil => exact absurd hc this
    | cons a t => simp
  simp only [hfilter]
  exact hbuild

/-! ## Sentiment Scorer and Parallel Aggregator:
SentimentAnalysisApp.calculate_sentiments (src/app_utils.py lines 991-1053)
and its fallible variant, plus the error handling of perform_analysis
(lines 835-876).

The compound value get_sentiment_score returns for a text enters as the
parameter score; self.max_workers enters as the parameter max_workers. -/

/-- The per-product counters of the defaultdict agg (line 1026). -/
structure Counts where
  pos : ℕ
  neg : ℕ
  neu : ℕ
  total : ℕ
deriving DecidableEq, Repr

/-- The defaultdict initial value, lambda with the four zero counters. -/
def zeroCounts : Counts := ⟨0, 0, 0, 0⟩

/-- One iteration of the aggregation loop (lines 1027-1034): increment total,
then exactly one of pos, neg, neu by the fixed thresholds on the compound
score. -/
def countsStep (c₀ : Counts) (compound : ℚ) : Counts :=
  let c := { c₀ with total := c₀.total + 1 }
  if compound > 0.05 then { c with pos := c.pos + 1 }
  else if compound < -0.05 then { c with neg := c.neg + 1 }
  else { c with neu := c.neu + 1 }

/-- The dict operation the loop body performs on agg for one
(product, score) pair of the zip. -/
def aggStep (agg : List (String × Counts)) (pr : String × ℚ) : List (String × Counts) :=
  dictUpd agg pr.1 (fun c => countsStep c pr.2) (countsStep zeroCounts pr.2)

/-- A per-product SentimentSummary as emitted by lines 1037-1049. -/
structure Summary where
  pos : ℚ
  neg : ℚ
  neu : ℚ
  total : ℕ
  compound : ℚ
deriving DecidableEq, Repr

/-- The zero placeholder summary of line 1040. -/
def zeroSummary : Summary := ⟨0, 0, 0, 0, 0⟩

/-- Round-half-even of an exact rational to an integer, the idealised
semantics of Python round() used at lines 1044-1048. -/
def roundHalfEven (x : ℚ) : ℤ :=
  if x - ⌊x⌋ < 1/2 then ⌊x⌋
  else if 1/2 < x - ⌊x⌋ then ⌊x⌋ + 1
  else if ⌊x⌋ % 2 = 0 then ⌊x⌋ else ⌊x⌋ + 1

/-- Python round(x, ndigits). -/
def pyRound (ndigits : ℕ) (x : ℚ) : ℚ :=
  (roundHalfEven (x * 10 ^ ndigits) : ℚ) / 10 ^ ndigits

/-- The final per-product summary (lines 1037-1049): the zero summary when
total is 0, otherwise the rounded percentage fields and the rounded
(pos - neg) / total compound. -/
def summarize (c : Counts) : Summary :=
  if c.total = 0 then zeroSummary
  else
    { pos := pyRound 2 ((c.pos : ℚ) / (c.total : ℚ) * 100)
      neg := pyRound 2 ((c.neg : ℚ) / (c.total : ℚ) * 100)
      neu := pyRound 2 ((c.neu : ℚ) / (c.total : ℚ) * 100)
      total := c.total
      compound := pyRound 4 (((c.pos : ℚ) - (c.neg : ℚ)) / (c.total : ℚ)) }

/-- Python x or d on a non-negative int x (line 1004 uses it with d = 1). -/
def pyOrNat (x d : ℕ) : ℕ := if x = 0 then d else x

/-- SentimentAnalysisApp.calculate_sentiments (lines 991-1053): flatten the
corpus into the parallel product and review lists, split the review list
into batches of chunksize, score each batch with the pure scorer
(reassembled in original batch order regardless of completion order),
flatten, and aggregate pairwise into per-product summaries. -/
def calculate_sentiments (score : String → ℚ) (max_workers : ℕ) (products : Corpus) :
    List (String × Summary) :=
  let product_list := products.flatMap (fun pr => List.replicate pr.2.length pr.1)
  let review_list := products.flatMap (fun pr => pr.2)
  let chunksize := max 1000 (pyOrNat (review_list.length / (max_workers * 2)) 1)
  let batches := chunksOf chunksize review_list
  let sentiment_scores := batches.map (fun batch => batch.map score)
  let flat_scores := sentiment_scores.flatten
  let agg := (product_list.zip flat_scores).foldl aggStep []
  agg.map (fun pc => (pc.1, summarize pc.2))

/-- Whether a fallible computation raised. -/
def isErr {ε α : Type} : Except ε α → Bool
  | Except.error _ => true
  | Except.ok _ => false

/-- calculate_sentiments against a scorer that can raise: each submitted
batch evaluates score on every text of the batch (batch_sentiment, lines
1009-1010), and the first future whose result raises propagates the
exception out of the as_completed loop (lines 1018-1020) and out of
calculate_sentiments, which has no handler. -/
def calculate_sentimentsE (score : String → Except String ℚ) (max_workers : ℕ)
    (products : Corpus) : Except String (List (String × Summary)) := do
  let product_list := products.flatMap (fun pr => List.replicate pr.2.length pr.1)
  let review_list := products.flatMap (fun pr => pr.2)
  let chunksize := max 1000 (pyOrNat (review_list.length / (max_workers * 2)) 1)
  let batches := chunksOf chunksize review_list
  let sentiment_scores ← batches.mapM (fun batch => batch.mapM score)
  let flat_scores := sentiment_scores.flatten
  let agg := (product_list.zip flat_scores).foldl aggStep []
  return agg.map (fun pc => (pc.1, summarize pc.2))

/-- The outcome of perform_analysis (lines 835-876) around the aggregation
stage: on success self.results is set and the status label reads Analysis
complete, on any exception the except block reports failure and self.results
is left unset. -/
def perform_analysis (score : String → Except String ℚ) (max_workers : ℕ)
    (products : Corpus) : Option (List (String × Summary)) × String :=
  match calculate_sentimentsE score max_workers products with
  | Except.ok results => (some results, "Analysis complete!")
  | Except.error _ => (none, "Analysis failed")

/-- The multiset of scores aggregated under product key p: the scored
reviews of every corpus entry carrying that key, in order. -/
def prodScores (score : String → ℚ) (products : Corpus) (p : String) : List ℚ :=
  products.flatMap (fun pr => if pr.1 = p then pr.2.map score else [])

/-- The counters the aggregation loop accumulates over a score list. -/
def countsOf (scores : List ℚ) : Counts :=
  { pos := scores.countP (fun x => x > 0.05)
    neg := scores.countP (fun x => x < -0.05)
    neu := scores.countP (fun x => ¬x > 0.05 ∧ ¬x < -0.05)
    total := scores.length }

theorem counts_eq_of_fields {a b : Counts} (h1 : a.pos = b.pos) (h2 : a.neg = b.neg)
    (h3 : a.neu = b.neu) (h4 : a.total = b.total) : a = b := by
  cases a; cases b; simp_all

theorem countsStep_pos (c : Counts) (x : ℚ) :
    (countsStep c x).pos = c.pos + (if x > 0.05 then 1 else 0) := by
  unfold countsStep
  split_ifs <;> first | (exfalso; tauto) | (exfalso; linarith) | simp

theorem countsStep_neg (c : Counts) (x : ℚ) :
    (countsStep c x).neg = c.neg + (if x < -0.05 then 1 else 0) := by
  unfold countsStep
  split_ifs <;> first | (exfalso; tauto) | (exfalso; linarith) | simp

theorem countsStep_neu (c : Counts) (x : ℚ) :
    (countsStep c x).neu = c.neu + (if ¬x > 0.05 ∧ ¬x < -0.05 then 1 else 0) := by
  unfold countsStep
  split_ifs <;> first | (exfalso; tauto) | (exfalso; linarith) | simp

theorem countsStep_total (c : Counts) (x : ℚ) :
    (countsStep c x).total = c.total + 1 := by
  unfold countsStep
  split_ifs <;> rfl

theorem countsStep_inv (c : Counts) (x : ℚ) (h : c.pos + c.neg + c.neu = c.total) :
    (countsStep c x).pos + (countsStep c x).neg + (countsStep c x).neu =
      (countsStep c x).total := by
  unfold countsStep
  split_ifs <;> simp <;> omega

theorem foldl_countsStep_pos (scores : List ℚ) :
    ∀ c, (scores.foldl countsStep c).pos = c.pos + scores.countP (fun x => x > 0.05) := by
  induction scores with
  | nil => intro c; simp
  | cons x rest ih =>
    intro c
    rw [List.foldl_cons, ih, List.countP_cons, countsStep_pos]
    simp only [decide_eq_true_eq]
    split_ifs <;> omega

theorem foldl_countsStep_neg (scores : List ℚ) :
    ∀ c, (scores.foldl countsStep c).neg = c.neg + scores.countP (fun x => x < -0.05) := by
  induction scores with
  | nil => intro c; simp
  | cons x rest ih =>
    intro c
    rw [List.foldl_cons, ih, List.countP_cons, countsStep_neg]
    simp only [decide_eq_true_eq]
    split_ifs <;> omega

theorem foldl_countsStep_neu (scores : List ℚ) :
    ∀ c, (scores.foldl countsStep c).neu =
      c.neu + scores.countP (fun x => ¬x > 0.05 ∧ ¬x < -0.05) := by
  induction scores with
  | nil => intro c; simp
  | cons x rest ih =>
    intro c
    rw [List.foldl_cons, ih, List.countP_cons, countsStep_neu]
    simp only [decide_eq_true_eq]
    split_ifs <;> omega

theorem foldl_countsStep_total (scores : List ℚ) :
    ∀ c, (scores.foldl countsStep c).total = c.total + scores.length := by
  induction scores with
  | nil => intro c; simp
  | cons x rest ih =>
    intro c
    rw [List.foldl_cons, ih, List.length_cons, countsStep_total]
    omega

theorem foldl_countsStep_zero (scores : List ℚ) :
    scores.foldl countsStep zeroCounts = countsOf scores := by
  refine counts_eq_of_fields ?_ ?_ ?_ ?_
  · rw [foldl_countsStep_pos]; simp [zeroCounts, countsOf]
  · rw [foldl_countsStep_neg]; simp [zeroCounts, countsOf]
  · rw [foldl_countsStep_neu]; simp [zeroCounts, countsOf]
  · rw [foldl_countsStep_total]; simp [zeroCounts, countsOf]

theorem agg_lookup (pairs : List (String × ℚ)) :
    ∀ (d : List (String × Counts)) (p : String),
      listLookup p (pairs.foldl aggStep d) =
        (match listLookup p d with
         | some c => some (((pairs.filter (fun q => q.1 = p)).map (fun q => q.2)).foldl
            countsStep c)
         | none =>
           if (pairs.filter (fun q => q.1 = p)).map (fun q => q.2) = [] then none
           else some (((pairs.filter (fun q => q.1 = p)).map (fun q => q.2)).foldl
            countsStep zeroCounts)) := by
  induction pairs with
  | nil =>
    intro d p
    cases h : listLookup p d <;> simp [h]
  | cons q rest ih =>
    intro d p
    obtain ⟨a, s⟩ := q
    rw [List.foldl_cons, ih]
    by_cases hk : a = p
    · subst hk
      have hstep : aggStep d (a, s) =
          dictUpd d a (fun c => countsStep c s) (countsStep zeroCounts s) := rfl
      rw [hstep, listLookup_dictUpd_self]
      have hfil : ((a, s) :: rest).filter (fun q => q.1 = a) =
          (a, s) :: rest.filter (fun q => q.1 = a) := by
        rw [List.filter_cons]
        simp
      cases hd : listLookup a d with
      | some c => simp [hfil]
      | none => simp [hfil]
    · have hstep : aggStep d (a, s) =
          dictUpd d a (fun c => countsStep c s) (countsStep zeroCounts s) := rfl
      rw [hstep, listLookup_dictUpd_ne d _ _ (Ne.symm hk)]
      have hfil : ((a, s) :: rest).filter (fun q => q.1 = p) =
          rest.filter (fun q => q.1 = p) := by
        rw [List.filter_cons]
        simp [hk]
      rw [hfil]

theorem flatten_map_map {α β : Type} (f : α → β) :
    ∀ L : List (List α), (L.map (List.map f)).flatten = L.flatten.map f := by
  intro L
  induction L with
  | nil => rfl
  | cons c t ih =>
    rw [List.map_cons, List.flatten_cons, List.flatten_cons, ih, List.map_append]

theorem zip_replicate_map {α β γ : Type} (p : β) (f : α → γ) :
    ∀ l : List α, (List.replicate l.length p).zip (l.map f) = l.map (fun r => (p, f r)) := by
  intro l
  induction l with
  | nil => rfl
  | cons a t ih =>
    rw [List.length_cons, List.replicate_succ, List.map_cons, List.zip_cons_cons, ih,
      List.map_cons]

theorem flat_pairs_eq (score : String → ℚ) :
    ∀ products : Corpus,
      (products.flatMap (fun pr => List.replicate pr.2.length pr.1)).zip
          ((products.flatMap (fun pr => pr.2)).map score) =
        products.flatMap (fun pr => pr.2.map (fun r => (pr.1, score r))) := by
  intro products
  induction products with
  | nil => rfl
  | cons pr t ih =>
    rw [List.flatMap_cons, List.flatMap_cons, List.flatMap_cons, List.map_append,
      List.zip_append (by rw [List.length_replicate, List.length_map]), zip_replicate_map, ih]

theorem filter_map_const_key (a p : String) (g : String → ℚ) (l : List String) :
    ((l.map (fun r => (a, g r))).filter (fun q => q.1 = p)).map (fun q => q.2) =
      if a = p then l.map g else [] := by
  induction l with
  | nil => simp
  | cons r t ih =>
    by_cases hk : a = p
    · subst hk
      rw [if_pos rfl] at ih ⊢
      simp only [List.map_cons, List.filter_cons]
      simp [ih]
    · rw [if_neg hk] at ih ⊢
      simp only [List.map_cons, List.filter_cons]
      simp [hk, ih]

theorem filter_flat_pairs (score : String → ℚ) (p : String) :
    ∀ products : Corpus,
      ((products.flatMap (fun pr => pr.2.map (fun r => (pr.1, score r)))).filter
          (fun q => q.1 = p)).map (fun q => q.2) = prodScores score products p := by
  intro products
  induction products with
  | nil => rfl
  | cons pr t ih =>
    rw [List.flatMap_cons, List.filter_append, List.map_append, ih]
    unfold prodScores
    rw [List.flatMap_cons]
    congr 1
    exact filter_map_const_key pr.1 p score pr.2

theorem calc_lookup (score : String → ℚ) (w : ℕ) (products : Corpus) (p : String) :
    listLookup p (calculate_sentiments score w products) =
      (if prodScores score products p = [] then none
       else some (summarize (countsOf (prodScores score products p)))) := by
  simp only [calculate_sentiments]
  rw [flatten_map_map, chunksOf_flatten (le_trans (by norm_num) (le_max_left 1000 _)),
    flat_pairs_eq, listLookup_map_snd, agg_lookup]
  simp only [listLookup]
  rw [filter_flat_pairs]
  by_cases hsel : prodScores score products p = []
  · rw [if_pos hsel, if_pos hsel]
    rfl
  · rw [if_neg hsel, if_neg hsel, foldl_countsStep_zero]
    rfl

theorem summarize_total (c : Counts) : (summarize c).total = c.total := by
  unfold summarize
  split_ifs with h
  · simp [zeroSummary, h]
  · rfl

theorem agg_counts_inv (pairs : List (String × ℚ)) :
    ∀ d, (∀ e ∈ d, e.2.pos + e.2.neg + e.2.neu = e.2.total) →
      ∀ e ∈ pairs.foldl aggStep d, e.2.pos + e.2.neg + e.2.neu = e.2.total := by
  induction pairs with
  | nil => intro d hd; exact hd
  | cons q rest ih =>
    intro d hd
    have hstep : aggStep d q =
        dictUpd d q.1 (fun c => countsStep c q.2) (countsStep zeroCounts q.2) := rfl
    rw [List.foldl_cons, hstep]
    refine ih _ ?_
    exact mem_dictUpd_snd (P := fun c => c.pos + c.neg + c.neu = c.total) hd
      (fun v hv => countsStep_inv v q.2 hv) (countsStep_inv zeroCounts q.2 rfl)

theorem calc_mem (score : String → ℚ) (w : ℕ) (products : Corpus) {p : String} {s : Summary}
    (h : (p, s) ∈ calculate_sentiments score w products) :
    ∃ c : Counts, s = summarize c ∧ c.pos + c.neg + c.neu = c.total := by
  simp only [calculate_sentiments] at h
  obtain ⟨pc, hpc, heq⟩ := List.mem_map.mp h
  have hs : s = summarize pc.2 := by
    have := congrArg Prod.snd heq
    simpa using this.symm
  exact ⟨pc.2, hs, agg_counts_inv _ [] (by simp) pc hpc⟩

theorem abs_roundHalfEven_sub (y : ℚ) : |(roundHalfEven y : ℚ) - y| ≤ 1/2 := by
  have h0 : (0:ℚ) ≤ y - ⌊y⌋ := by
    have := Int.floor_le y
    linarith
  have h1 : y - ⌊y⌋ < 1 := by
    have := Int.lt_floor_add_one y
    linarith
  unfold roundHalfEven
  split_ifs with ha hb hc
  · rw [abs_le]; constructor <;> linarith
  · push_cast
    rw [abs_le]; constructor <;> linarith
  · rw [abs_le]; constructor <;> linarith
  · push_cast
    rw [abs_le]; constructor <;> linarith

theorem abs_pyRound_sub (n : ℕ) (x : ℚ) : |pyRound n x - x| ≤ 1 / (2 * 10 ^ n) := by
  unfold pyRound
  have h10 : (0:ℚ) < 10 ^ n := by positivity
  have hrw : (roundHalfEven (x * 10 ^ n) : ℚ) / 10 ^ n - x =
      ((roundHalfEven (x * 10 ^ n) : ℚ) - x * 10 ^ n) / 10 ^ n := by
    field_simp
    ring
  rw [hrw, abs_div, abs_of_pos h10, div_le_div_iff₀ h10 (by positivity)]
  have hb := abs_roundHalfEven_sub (x * 10 ^ n)
  nlinarith [h10, hb]

theorem abs_pyRound2_sub (x : ℚ) : |pyRound 2 x - x| ≤ 1 / 200 := by
  have := abs_pyRound_sub 2 x
  norm_num at this
  norm_num
  exact this

/-! ## Fallible scoring (exception propagation) -/

theorem mapM_ok_of_forall {α β : Type} (f : α → Except String β) (g : α → β) :
    ∀ l : List α, (∀ r ∈ l, f r = Except.ok (g r)) → l.mapM f = Except.ok (l.map g) := by
  intro l
  induction l with
  | nil => intro h; rfl
  | cons a t ih =>
    intro h
    rw [List.mapM_cons, h a (by simp), ih (fun r hr => h r (List.mem_cons_of_mem _ hr)),
      List.map_cons]
    rfl

theorem mapM_error_of_exists {α β : Type} (f : α → Except String β) :
    ∀ l : List α, (∃ r ∈ l, isErr (f r) = true) → ∃ e, l.mapM f = Except.error e := by
  intro l
  induction l with
  | nil => rintro ⟨r, hr, -⟩; simp at hr
  | cons a t ih =>
    rintro ⟨r, hr, herr⟩
    rw [List.mapM_cons]
    cases hfa : f a with
    | error e => exact ⟨e, rfl⟩
    | ok b =>
      rcases List.mem_cons.mp hr with rfl | hr'
      · rw [hfa] at herr; simp [isErr] at herr
      · obtain ⟨e, he⟩ := ih ⟨r, hr', herr⟩
        refine ⟨e, ?_⟩
        rw [he]
        rfl

theorem calcE_error (score : String → Except String ℚ) (w : ℕ) (products : Corpus)
    (h : ∃ r ∈ products.flatMap (fun pr => pr.2), isErr (score r) = true) :
    ∃ e, calculate_sentimentsE score w products = Except.error e := by
  have hn : 1 ≤ max 1000 (pyOrNat ((products.flatMap (fun pr => pr.2)).length / (w * 2)) 1) :=
    le_trans (by norm_num) (le_max_left 1000 _)
  obtain ⟨r, hr, herr⟩ := h
  have hrmem : r ∈ (chunksOf
      (max 1000 (pyOrNat ((products.flatMap (fun pr => pr.2)).length / (w * 2)) 1))
      (products.flatMap (fun pr => pr.2))).flatten := by
    rw [chunksOf_flatten hn]
    exact hr
  obtain ⟨batch, hbatch, hrb⟩ := List.mem_flatten.mp hrmem
  obtain ⟨e', he'⟩ := mapM_error_of_exists score batch ⟨r, hrb, herr⟩
  obtain ⟨e, he⟩ := mapM_error_of_exists (fun batch => batch.mapM score) _
    ⟨batch, hbatch, show isErr (List.mapM score batch) = true by rw [he']; rfl⟩
  refine ⟨e, ?_⟩
  simp only [calculate_sentimentsE]
  rw [he]
  rfl

theorem perform_analysis_error (score : String → Except String ℚ) (w : ℕ) (products : Corpus)
    (h : ∃ r ∈ products.flatMap (fun pr => pr.2), isErr (score r) = true) :
    perform_analysis score w products = (none, "Analysis failed") := by
  obtain ⟨e, he⟩ := calcE_error score w products h
  unfold perform_analysis
  rw [he]

theorem calcE_ok (score : String → Except String ℚ) (g : String → ℚ) (w : ℕ) (products : Corpus)
    (h : ∀ r ∈ products.flatMap (fun pr => pr.2), score r = Except.ok (g r)) :
    calculate_sentimentsE score w products =
      Except.ok (calculate_sentiments g w products) := by
  have hn : 1 ≤ max 1000 (pyOrNat ((products.flatMap (fun pr => pr.2)).length / (w * 2)) 1) :=
    le_trans (by norm_num) (le_max_left 1000 _)
  have hmem : ∀ b ∈ chunksOf
      (max 1000 (pyOrNat ((products.flatMap (fun pr => pr.2)).length / (w * 2)) 1))
      (products.flatMap (fun pr => pr.2)), ∀ r ∈ b,
      r ∈ products.flatMap (fun pr => pr.2) := by
    intro b hb r hr
    rw [← chunksOf_flatten hn (products.flatMap (fun pr => pr.2))]
    exact List.mem_flatten.mpr ⟨b, hb, hr⟩
  simp only [calculate_sentimentsE, calculate_sentiments]
  rw [mapM_ok_of_forall (fun batch => batch.mapM score) (fun batch => batch.map g) _
    (fun b hb => mapM_ok_of_forall score g b (fun r hr => h r (hmem b hb r hr)))]
  rfl

/-! ## Result Cache key: get_cache_filename (src/app_utils.py lines 799-804)
and the cache directory of lines 38-47 (primary branch: the per-user
directory under the home directory). -/

/-- Python int() applied to a float: truncation toward zero. -/
def pyIntTrunc (x : ℚ) : ℤ := if 0 ≤ x then ⌊x⌋ else -⌊-x⌋

/-- The fixed cache directory (module constant CACHE_DIR, primary branch). -/
def CACHE_DIR (home : String) : String := pathJoin home ".sentiment_analyzer_cache"

/-- SentimentAnalysisApp.get_cache_filename: basename with dots replaced by
underscores, an underscore, int of the modification time, and the .json
suffix, joined under CACHE_DIR. -/
def get_cache_filename (home csv_filename : String) (mod_time : ℚ) : String :=
  let base_name := osBasename csv_filename
  let cache_name :=
    pyReplaceDotUnderscore base_name ++ "_" ++ toString (pyIntTrunc mod_time) ++ ".json"
  pathJoin (CACHE_DIR home) cache_name

theorem pyIntTrunc_of_nonneg {x : ℚ} (h : 0 ≤ x) : pyIntTrunc x = ⌊x⌋ := by
  unfold pyIntTrunc
  rw [if_pos h]

/-! ## Progress signal: the values update_progress receives during one run
(src/app_utils.py lines 830, 960-981, 1051-1052, 1094-1096).

start_analysis resets the bar to 0; the chunked ingestion path reports
min(40, 5 + (chunks_processed * chunk_size / total_rows) * 35) after each
chunk; the in-memory path reports 40 once; calculate_sentiments reports 100
at the end.  A run's trace is the list of these values in order. -/

/-- The value reported after the k-th chunk of the chunked ingestion path
(line 962-963). -/
def ingest_progress (chunk_size total_rows chunks_processed : ℕ) : ℚ :=
  min 40 (5 + ((chunks_processed : ℚ) * chunk_size / total_rows) * 35)

/-- The progress values of one run on the chunked path, in order. -/
def chunked_progress_trace (chunk_size total_rows num_chunks : ℕ) : List ℚ :=
  0 :: ((List.range num_chunks).map (fun i => ingest_progress chunk_size total_rows (i + 1))
    ++ [100])

/-- The progress values of one run on the in-memory path, in order. -/
def inmemory_progress_trace : List ℚ := [0, 40, 100]

theorem ingest_progress_nonneg (c T k : ℕ) : 0 ≤ ingest_progress c T k := by
  unfold ingest_progress
  have h : (0:ℚ) ≤ 5 + ((k:ℚ) * c / T) * 35 := by positivity
  exact le_min (by norm_num) h

theorem ingest_progress_le_40 (c T k : ℕ) : ingest_progress c T k ≤ 40 :=
  min_le_left _ _

theorem ingest_progress_mono (c T : ℕ) {k k' : ℕ} (h : k ≤ k') :
    ingest_progress c T k ≤ ingest_progress c T k' := by
  unfold ingest_progress
  apply min_le_min le_rfl
  have hk : (k:ℚ) ≤ k' := by exact_mod_cast h
  have hc : (0:ℚ) ≤ (c:ℚ) / T := by positivity
  have hm : (k:ℚ) * c / T ≤ (k':ℚ) * c / T := by
    rw [mul_div_assoc, mul_div_assoc]
    exact mul_le_mul_of_nonneg_right hk hc
  linarith

theorem summarize_sum_bound (c : Counts) (hc : c.pos + c.neg + c.neu = c.total)
    (ht : c.total ≠ 0) :
    |(summarize c).pos + (summarize c).neg + (summarize c).neu - 100| ≤ 3 / 200 := by
  have htQ : (c.total : ℚ) ≠ 0 := Nat.cast_ne_zero.mpr ht
  have hcast : (c.pos : ℚ) + c.neg + c.neu = c.total := by exact_mod_cast hc
  have hone : (c.pos : ℚ) / c.total + (c.neg : ℚ) / c.total + (c.neu : ℚ) / c.total = 1 := by
    rw [div_add_div_same, div_add_div_same, hcast, div_self htQ]
  have hsum : (c.pos : ℚ) / c.total * 100 + (c.neg : ℚ) / c.total * 100 +
      (c.neu : ℚ) / c.total * 100 = 100 := by
    calc (c.pos : ℚ) / c.total * 100 + (c.neg : ℚ) / c.total * 100 +
        (c.neu : ℚ) / c.total * 100
        = ((c.pos : ℚ) / c.total + (c.neg : ℚ) / c.total + (c.neu : ℚ) / c.total) * 100 := by
          ring
      _ = 100 := by rw [hone]; norm_num
  have hpos : (summarize c).pos = pyRound 2 ((c.pos : ℚ) / c.total * 100) := by
    simp [summarize, ht]
  have hneg : (summarize c).neg = pyRound 2 ((c.neg : ℚ) / c.total * 100) := by
    simp [summarize, ht]
  have hneu : (summarize c).neu = pyRound 2 ((c.neu : ℚ) / c.total * 100) := by
    simp [summarize, ht]
  rw [hpos, hneg, hneu]
  obtain ⟨h1a, h1b⟩ := abs_le.mp (abs_pyRound2_sub ((c.pos : ℚ) / c.total * 100))
  obtain ⟨h2a, h2b⟩ := abs_le.mp (abs_pyRound2_sub ((c.neg : ℚ) / c.total * 100))
  obtain ⟨h3a, h3b⟩ := abs_le.mp (abs_pyRound2_sub ((c.neu : ℚ) / c.total * 100))
  rw [abs_le]
  constructor <;> linarith [hsum]

theorem prodScores_eq_nil (score : String → ℚ) (t : Corpus) (p : String)
    (h : ∀ e ∈ t, e.1 ≠ p) : prodScores score t p = [] := by
  induction t with
  | nil => rfl
  | cons pr t ih =>
    unfold prodScores
    rw [List.flatMap_cons, if_neg (h pr (by simp)), List.nil_append]
    exact ih (fun e he => h e (List.mem_cons_of_mem _ he))

theorem prodScores_of_nodup (score : String → ℚ) :
    ∀ (products : Corpus), (products.map Prod.fst).Nodup →
      ∀ {p : String} {l : List String}, (p, l) ∈ products →
      prodScores score products p = l.map score := by
  intro products
  induction products with
  | nil => intro _ _ _ hmem; simp at hmem
  | cons pr t ih =>
    intro hnd p l hmem
    have hnd' : (t.map Prod.fst).Nodup := (List.nodup_cons.mp (by simpa using hnd)).2
    have hhead : pr.1 ∉ t.map Prod.fst := (List.nodup_cons.mp (by simpa using hnd)).1
    rcases List.mem_cons.mp hmem with rfl | hmem'
    · unfold prodScores
      rw [List.flatMap_cons, if_pos rfl]
      have htail : prodScores score t p = [] := by
        refine prodScores_eq_nil score t p ?_
        intro e he hc
        apply hhead
        have hm := List.mem_map_of_mem Prod.fst he
        rwa [hc] at hm
      unfold prodScores at htail
      rw [htail, List.append_nil]
    · have hne : pr.1 ≠ p := by
        intro hc
        apply hhead
        rw [hc]
        exact List.mem_map_of_mem Prod.fst hmem'
      unfold prodScores
      rw [List.flatMap_cons, if_neg hne, List.nil_append]
      exact ih hnd' hmem'

/-! ## Claim theorems -/

/-- C3: classification during aggregation is exactly threshold-consistent:
each scored review increments total by one and exactly one of the pos, neg
and neu counters of its product; pos exactly when the compound exceeds 0.05,
neg exactly when it is below -0.05, neu otherwise.  In particular compounds
of exactly 0.05, exactly -0.05 and 0 count as neutral, 0.05000001 counts as
positive and -0.05000001 counts as negative. -/
theorem claim_C3 (c : Counts) (x : ℚ) :
    (countsStep c x).total = c.total + 1 ∧
    ((countsStep c x).pos = c.pos + 1 ↔ x > 0.05) ∧
    ((countsStep c x).neg = c.neg + 1 ↔ x < -0.05) ∧
    ((countsStep c x).neu = c.neu + 1 ↔ (¬x > 0.05 ∧ ¬x < -0.05)) ∧
    (countsStep c x).pos + (countsStep c x).neg + (countsStep c x).neu =
      c.pos + c.neg + c.neu + 1 ∧
    (countsStep zeroCounts (0.05 : ℚ)).neu = 1 ∧
    (countsStep zeroCounts (-0.05 : ℚ)).neu = 1 ∧
    (countsStep zeroCounts (0 : ℚ)).neu = 1 ∧
    (countsStep zeroCounts (0.05000001 : ℚ)).pos = 1 ∧
    (countsStep zeroCounts (-0.05000001 : ℚ)).neg = 1 := by
  refine ⟨countsStep_total c x, ?_, ?_, ?_, ?_, ?_, ?_, ?_, ?_, ?_⟩
  · rw [countsStep_pos]
    by_cases h : x > 0.05 <;> simp [h] <;> omega
  · rw [countsStep_neg]
    by_cases h : x < -0.05 <;> simp [h] <;> omega
  · rw [countsStep_neu]
    by_cases h : (¬x > 0.05 ∧ ¬x < -0.05) <;> simp [h] <;> first | omega | tauto
  · rw [countsStep_pos, countsStep_neg, countsStep_neu]
    split_ifs <;> first | omega | (exfalso; tauto) | (exfalso; linarith)
  · rw [countsStep_neu]; norm_num [zeroCounts]
  · rw [countsStep_neu]; norm_num [zeroCounts]
  · rw [countsStep_neu]; norm_num [zeroCounts]
  · rw [countsStep_pos]; norm_num [zeroCounts]
  · rw [countsStep_neg]; norm_num [zeroCounts]

/-- C4: for every product summary the aggregation emits, there are counters
with pos + neg + neu = total behind it; when total is 0 the summary is the
all-zero one, and when total is positive each percentage field is the
2-decimal rounding of count / total * 100, the compound is the 4-decimal
rounding of (pos - neg) / total, and the three percentages sum to 100 within
the rounding tolerance 3/200 = 0.015. -/
theorem claim_C4 :
    (∀ c : Counts, c.pos + c.neg + c.neu = c.total →
      (c.total = 0 → summarize c = zeroSummary) ∧
      (c.total ≠ 0 →
        (summarize c).pos = pyRound 2 ((c.pos : ℚ) / c.total * 100) ∧
        (summarize c).neg = pyRound 2 ((c.neg : ℚ) / c.total * 100) ∧
        (summarize c).neu = pyRound 2 ((c.neu : ℚ) / c.total * 100) ∧
        (summarize c).compound = pyRound 4 (((c.pos : ℚ) - c.neg) / c.total) ∧
        (summarize c).total = c.total ∧
        |(summarize c).pos + (summarize c).neg + (summarize c).neu - 100| ≤ 3 / 200)) ∧
    (∀ (score : String → ℚ) (w : ℕ) (products : Corpus) (p : String) (s : Summary),
      (p, s) ∈ calculate_sentiments score w products →
      ∃ c : Counts, s = summarize c ∧ c.pos + c.neg + c.neu = c.total) := by
  constructor
  · intro c hc
    constructor
    · intro h0
      simp [summarize, h0]
    · intro ht
      refine ⟨by simp [summarize, ht], by simp [summarize, ht], by simp [summarize, ht],
        by simp [summarize, ht], summarize_total c, summarize_sum_bound c hc ht⟩
  · intro score w products p s h
    exact calc_mem score w products h

/-- Witness for C4 at the concrete counters pos 1, neg 1, neu 1, total 3. -/
theorem claim_C4_witness :
    ((Counts.mk 1 1 1 3).pos + (Counts.mk 1 1 1 3).neg + (Counts.mk 1 1 1 3).neu =
      (Counts.mk 1 1 1 3).total) ∧
    (((Counts.mk 1 1 1 3).total = 0 → summarize (Counts.mk 1 1 1 3) = zeroSummary) ∧
     ((Counts.mk 1 1 1 3).total ≠ 0 →
       (summarize (Counts.mk 1 1 1 3)).pos =
         pyRound 2 (((Counts.mk 1 1 1 3).pos : ℚ) / (Counts.mk 1 1 1 3).total * 100) ∧
       (summarize (Counts.mk 1 1 1 3)).neg =
         pyRound 2 (((Counts.mk 1 1 1 3).neg : ℚ) / (Counts.mk 1 1 1 3).total * 100) ∧
       (summarize (Counts.mk 1 1 1 3)).neu =
         pyRound 2 (((Counts.mk 1 1 1 3).neu : ℚ) / (Counts.mk 1 1 1 3).total * 100) ∧
       (summarize (Counts.mk 1 1 1 3)).compound =
         pyRound 4 ((((Counts.mk 1 1 1 3).pos : ℚ) - (Counts.mk 1 1 1 3).neg) /
           (Counts.mk 1 1 1 3).total) ∧
       (summarize (Counts.mk 1 1 1 3)).total = (Counts.mk 1 1 1 3).total ∧
       |(summarize (Counts.mk 1 1 1 3)).pos + (summarize (Counts.mk 1 1 1 3)).neg +
         (summarize (Counts.mk 1 1 1 3)).neu - 100| ≤ 3 / 200)) :=
  ⟨by decide, claim_C4.1 (Counts.mk 1 1 1 3) (by decide)⟩

/-- C5: aggregation is order-independent: permuting one product's review
list before running calculate_sentiments yields the identical
SentimentSummary for that product. -/
theorem claim_C5 (score : String → ℚ) (w : ℕ) (pre post : Corpus) (p : String)
    (l l' : List String) (hperm : l.Perm l') :
    listLookup p (calculate_sentiments score w (pre ++ (p, l) :: post)) =
      listLookup p (calculate_sentiments score w (pre ++ (p, l') :: post)) := by
  rw [calc_lookup, calc_lookup]
  have hsel : ∀ m : List String, prodScores score (pre ++ (p, m) :: post) p =
      prodScores score pre p ++ (m.map score ++ prodScores score post p) := by
    intro m
    unfold prodScores
    rw [List.flatMap_append, List.flatMap_cons, if_pos rfl]
  have hp2 : (prodScores score (pre ++ (p, l) :: post) p).Perm
      (prodScores score (pre ++ (p, l') :: post) p) := by
    rw [hsel l, hsel l']
    exact List.Perm.append_left _ ((hperm.map score).append_right _)
  have hcounts : countsOf (prodScores score (pre ++ (p, l) :: post) p) =
      countsOf (prodScores score (pre ++ (p, l') :: post) p) := by
    unfold countsOf
    rw [List.Perm.countP_eq _ hp2, List.Perm.countP_eq _ hp2, List.Perm.countP_eq _ hp2,
      hp2.length_eq]
  by_cases h1 : prodScores score (pre ++ (p, l) :: post) p = []
  · have h2 : prodScores score (pre ++ (p, l') :: post) p = [] := by
      have hlen := hp2.length_eq
      rw [h1] at hlen
      exact List.eq_nil_of_length_eq_zero hlen.symm
    rw [if_pos h1, if_pos h2]
  · have h2 : prodScores score (pre ++ (p, l') :: post) p ≠ [] := by
      intro hc
      have hlen := hp2.length_eq
      rw [hc] at hlen
      exact h1 (List.eq_nil_of_length_eq_zero hlen)
    rw [if_neg h1, if_neg h2, hcounts]

/-- Witness for C5: a three-review product list and a shuffle of it. -/
theorem claim_C5_witness :
    (["great thing!!", "bad thing!!!!", "meh thing!!!!"].Perm
      ["meh thing!!!!", "great thing!!", "bad thing!!!!"]) ∧
    listLookup "Widget" (calculate_sentiments (fun _ => 0) 4
        ([] ++ ("Widget", ["great thing!!", "bad thing!!!!", "meh thing!!!!"]) :: [])) =
      listLookup "Widget" (calculate_sentiments (fun _ => 0) 4
        ([] ++ ("Widget", ["meh thing!!!!", "great thing!!", "bad thing!!!!"]) :: [])) :=
  ⟨by decide, claim_C5 (fun _ => 0) 4 [] [] "Widget" _ _ (by decide)⟩

/-- The corpus used by the C10 witness. -/
def corpusC10 : Corpus := [("A", ["aaaaaaa"]), ("B", ["bbbbbbb", "ccccccc"])]

/-- C10: on a corpus whose keys are distinct (a Python dict guarantees this)
and in which every product maps to a non-empty review list (which the Corpus
Builder guarantees), every product key appears in the ResultSet with a
summary whose total equals the length of that product's review list, hence
at least 1, so no product receives the total-zero placeholder: the
total == 0 branch of the final loop is unreachable under this
precondition. -/
theorem claim_C10 (score : String → ℚ) (w : ℕ) (products : Corpus)
    (hnd : (products.map Prod.fst).Nodup) (hne : ∀ e ∈ products, e.2 ≠ []) :
    ∀ e ∈ products, ∃ s : Summary,
      listLookup e.1 (calculate_sentiments score w products) = some s ∧
      s.total = e.2.length ∧ 1 ≤ s.total ∧ s ≠ zeroSummary := by
  intro e he
  obtain ⟨p, l⟩ := e
  have hps : prodScores score products p = l.map score :=
    prodScores_of_nodup score products hnd he
  have hlne : l ≠ [] := hne (p, l) he
  have hne2 : prodScores score products p ≠ [] := by
    rw [hps]
    intro hc
    exact hlne (List.map_eq_nil_iff.mp hc)
  refine ⟨summarize (countsOf (prodScores score products p)), ?_, ?_, ?_, ?_⟩
  · rw [calc_lookup, if_neg hne2]
  · rw [summarize_total, hps]
    show (l.map score).length = l.length
    exact List.length_map l score
  · rw [summarize_total, hps]
    show 1 ≤ (l.map score).length
    rw [List.length_map]
    exact List.length_pos.mpr hlne
  · intro hc
    have htot := congrArg Summary.total hc
    rw [summarize_total, hps] at htot
    have : (l.map score).length = 0 := by
      simpa [zeroSummary, countsOf] using htot
    rw [List.length_map] at this
    exact hlne (List.eq_nil_of_length_eq_zero this)

/-- Witness for C10 at a concrete two-product corpus. -/
theorem claim_C10_witness :
    ((corpusC10.map Prod.fst).Nodup) ∧ (∀ e ∈ corpusC10, e.2 ≠ []) ∧
    ∀ e ∈ corpusC10, ∃ s : Summary,
      listLookup e.1 (calculate_sentiments (fun _ => 0) 4 corpusC10) = some s ∧
      s.total = e.2.length ∧ 1 ≤ s.total ∧ s ≠ zeroSummary :=
  ⟨by decide, by decide, claim_C10 (fun _ => 0) 4 corpusC10 (by decide) (by decide)⟩

/-- C6: the Column Resolver matches case-insensitively, tries the candidate
names in the given priority order with the first match winning, and returns
the original-cased header of the matched candidate; it returns None exactly
when no candidate matches.  On headers Title, Body, Stars, Item with
candidates review, review text, text, Body it resolves to Body, and on three
headers with no matching name, where the positional fallback candidate is
the empty string, it returns None. -/
theorem claim_C6 :
    (∀ names potential_names : List String,
      find_column_name names potential_names = none ↔
        ∀ p ∈ potential_names, ∀ n ∈ names, pyLower n ≠ pyLower p) ∧
    (∀ (names potential_names : List String) (h : String),
      find_column_name names potential_names = some h →
        h ∈ names ∧ ∃ p ∈ potential_names, pyLower h = pyLower p) ∧
    (∀ (names potential_names : List String) (c : String),
      (∃ n ∈ names, pyLower n = pyLower c) →
      ∃ h, find_column_name names (c :: potential_names) = some h ∧
        h ∈ names ∧ pyLower h = pyLower c) ∧
    find_column_name ["Title", "Body", "Stars", "Item"]
      ["review", "review text", "text", "Body"] = some "Body" ∧
    find_column_name ["Title", "Body", "Stars"] ["product", "product name", ""] = none := by
  refine ⟨find_column_name_none, ?_, find_column_name_cons_match, by decide, by decide⟩
  intro names pn h hf
  exact find_column_name_some hf

/-- C8: the cache key is a pure function of the source basename and the
truncated modification time: for the non-negative modification times real
files carry, int() agrees with the floor, and the cache file name is the
basename with every dot replaced by an underscore, an underscore, the floor
of the modification time, and the .json suffix, joined under the fixed cache
directory; sources agreeing on basename and truncated mtime get the same
cache file. -/
theorem claim_C8 (home csv_filename : String) (mod_time : ℚ) (h : 0 ≤ mod_time) :
    get_cache_filename home csv_filename mod_time =
      pathJoin (CACHE_DIR home)
        (pyReplaceDotUnderscore (osBasename csv_filename) ++ "_" ++
          toString (⌊mod_time⌋ : ℤ) ++ ".json") ∧
    ∀ (path2 : String) (m2 : ℚ), osBasename csv_filename = osBasename path2 →
      pyIntTrunc mod_time = pyIntTrunc m2 →
      get_cache_filename home csv_filename mod_time = get_cache_filename home path2 m2 := by
  constructor
  · show pathJoin (CACHE_DIR home)
        (pyReplaceDotUnderscore (osBasename csv_filename) ++ "_" ++
          toString (pyIntTrunc mod_time) ++ ".json") = _
    rw [pyIntTrunc_of_nonneg h]
  · intro path2 m2 hb hm
    show pathJoin (CACHE_DIR home)
        (pyReplaceDotUnderscore (osBasename csv_filename) ++ "_" ++
          toString (pyIntTrunc mod_time) ++ ".json") = pathJoin (CACHE_DIR home)
        (pyReplaceDotUnderscore (osBasename path2) ++ "_" ++
          toString (pyIntTrunc m2) ++ ".json")
    rw [hb, hm]

/-- Witness for C8 at a concrete path and modification time. -/
theorem claim_C8_witness :
    (0 ≤ (1700000000.5 : ℚ)) ∧
    (get_cache_filename "/home/u" "/data/reviews.csv" 1700000000.5 =
      pathJoin (CACHE_DIR "/home/u")
        (pyReplaceDotUnderscore (osBasename "/data/reviews.csv") ++ "_" ++
          toString (⌊(1700000000.5 : ℚ)⌋ : ℤ) ++ ".json") ∧
     ∀ (path2 : String) (m2 : ℚ),
       osBasename "/data/reviews.csv" = osBasename path2 →
       pyIntTrunc (1700000000.5 : ℚ) = pyIntTrunc m2 →
       get_cache_filename "/home/u" "/data/reviews.csv" 1700000000.5 =
         get_cache_filename "/home/u" path2 m2) :=
  ⟨by norm_num, claim_C8 "/home/u" "/data/reviews.csv" 1700000000.5 (by norm_num)⟩

/-- C9: within one analysis run the reported progress values form a
monotonically non-decreasing sequence inside the interval 0 to 100: the run
starts at 0, every chunked-ingestion update is at most 40 and does not
decrease as more chunks are consumed, the in-memory path reports 40 once,
and scoring completion reports 100 at the end. -/
theorem claim_C9 (chunk_size total_rows num_chunks : ℕ) :
    List.Chain' (· ≤ ·) (chunked_progress_trace chunk_size total_rows num_chunks) ∧
    (∀ x ∈ chunked_progress_trace chunk_size total_rows num_chunks, 0 ≤ x ∧ x ≤ 100) ∧
    (chunked_progress_trace chunk_size total_rows num_chunks).head? = some 0 ∧
    (chunked_progress_trace chunk_size total_rows num_chunks).getLast? = some 100 ∧
    (∀ k, ingest_progress chunk_size total_rows k ≤ 40) ∧
    List.Chain' (· ≤ ·) inmemory_progress_trace ∧
    (∀ x ∈ inmemory_progress_trace, 0 ≤ x ∧ x ≤ 100) := by
  have hmem40 : ∀ b ∈ (List.range num_chunks).map
      (fun i => ingest_progress chunk_size total_rows (i + 1)) ++ [(100 : ℚ)],
      0 ≤ b ∧ b ≤ 100 := by
    intro b hb
    rcases List.mem_append.mp hb with h1 | h1
    · obtain ⟨i, hi, rfl⟩ := List.mem_map.mp h1
      exact ⟨ingest_progress_nonneg _ _ _,
        le_trans (ingest_progress_le_40 _ _ _) (by norm_num)⟩
    · obtain rfl : b = 100 := by simpa using h1
      norm_num
  have hpw : List.Pairwise (· ≤ ·) (chunked_progress_trace chunk_size total_rows num_chunks) := by
    unfold chunked_progress_trace
    rw [List.pairwise_cons]
    refine ⟨fun b hb => (hmem40 b hb).1, ?_⟩
    rw [List.pairwise_append]
    refine ⟨?_, List.pairwise_singleton _ _, ?_⟩
    · rw [List.pairwise_map]
      refine List.Pairwise.imp ?_ (List.pairwise_lt_range num_chunks)
      intro i j hij
      exact ingest_progress_mono _ _ (Nat.succ_le_succ (le_of_lt hij))
    · intro a ha b hb
      obtain rfl : b = 100 := by simpa using hb
      obtain ⟨i, hi, rfl⟩ := List.mem_map.mp ha
      exact le_trans (ingest_progress_le_40 _ _ _) (by norm_num)
  refine ⟨hpw.chain', ?_, ?_, ?_, fun k => ingest_progress_le_40 _ _ _, ?_, ?_⟩
  · intro x hx
    unfold chunked_progress_trace at hx
    rcases List.mem_cons.mp hx with rfl | hx'
    · norm_num
    · exact hmem40 x hx'
  · rfl
  · unfold chunked_progress_trace
    rw [show (0 : ℚ) :: ((List.range num_chunks).map
        (fun i => ingest_progress chunk_size total_rows (i + 1)) ++ [(100 : ℚ)]) =
        ((0 : ℚ) :: (List.range num_chunks).map
          (fun i => ingest_progress chunk_size total_rows (i + 1))) ++ [(100 : ℚ)] from by
      rw [List.cons_append]]
    exact List.getLast?_concat _
  · unfold inmemory_progress_trace
    norm_num [List.chain'_cons]
  · intro x hx
    unfold inmemory_progress_trace at hx
    rcases List.mem_cons.mp hx with rfl | hx'
    · norm_num
    · rcases List.mem_cons.mp hx' with rfl | hx''
      · norm_num
      · obtain rfl : x = 100 := by simpa using hx''
        norm_num

theorem chunkSel_mem {rows : List Row} {k r : String} (h : r ∈ chunkSel rows k) :
    5 < (pyStrip r).length := by
  unfold chunkSel at h
  obtain ⟨row, hrow, hr⟩ := List.mem_filterMap.mp h
  by_cases hc : pyStrip (cellStr row.product) = k ∧ pyStrip (cellStr row.product) ≠ "" ∧
      pyStrip (cellStr row.review) ≠ "" ∧ 5 < (pyStrip (cellStr row.review)).length
  · rw [if_pos hc] at hr
    obtain rfl : pyStrip (cellStr row.review) = r := by simpa using hr
    rw [pyStrip_idem]
    exact hc.2.2.2
  · rw [if_neg hc] at hr
    simp at hr

theorem memReviews_mem {rows : List Row} {p r : String} (h : r ∈ memReviews rows p) :
    5 < (pyStrip r).length := by
  unfold memReviews at h
  obtain ⟨t, ht, hr⟩ := List.mem_filterMap.mp h
  by_cases hc : pyStrip t ≠ "" ∧ 5 < (pyStrip t).length
  · rw [if_pos hc] at hr
    obtain rfl : pyStrip t = r := by simpa using hr
    rw [pyStrip_idem]
    exact hc.2
  · rw [if_neg hc] at hr
    simp at hr

/-- C7: any ReviewCorpus either ingestion path returns maps each of its
product keys to a non-empty list of review texts each of which has length
above 5 after stripping; a product whose qualifying-review list would be
empty is absent from the map (its key resolves to none), so no key is ever
bound to an empty list. -/
theorem claim_C7 (rows : List Row) (k : String) (l : List String) :
    (listLookup k (read_chunked rows) = some l →
      l ≠ [] ∧ ∀ r ∈ l, 5 < (pyStrip r).length) ∧
    (listLookup k (read_inmemory rows) = some l →
      l ≠ [] ∧ ∀ r ∈ l, 5 < (pyStrip r).length) := by
  constructor
  · intro h
    rw [read_chunked_lookup] at h
    by_cases hsel : chunkSel rows k = []
    · rw [if_pos hsel] at h
      simp at h
    · rw [if_neg hsel] at h
      obtain rfl : chunkSel rows k = l := by simpa using h
      exact ⟨hsel, fun r hr => chunkSel_mem hr⟩
  · intro h
    rw [read_inmemory_lookup] at h
    by_cases hsel : k ∈ groupKeys rows ∧ memReviews rows k ≠ []
    · rw [if_pos hsel] at h
      obtain rfl : memReviews rows k = l := by simpa using h
      exact ⟨hsel.2, fun r hr => memReviews_mem hr⟩
    · rw [if_neg hsel] at h
      simp at h

theorem chunkSel_cons (row : Row) (t : List Row) (k : String) :
    chunkSel (row :: t) k =
      (if pyStrip (cellStr row.product) = k ∧ pyStrip (cellStr row.product) ≠ "" ∧
          pyStrip (cellStr row.review) ≠ "" ∧ 5 < (pyStrip (cellStr row.review)).length then
        [pyStrip (cellStr row.review)] else []) ++ chunkSel t k := by
  unfold chunkSel
  rw [List.filterMap_cons]
  by_cases hc : pyStrip (cellStr row.product) = k ∧ pyStrip (cellStr row.product) ≠ "" ∧
      pyStrip (cellStr row.review) ≠ "" ∧ 5 < (pyStrip (cellStr row.review)).length
  · rw [if_pos hc, if_pos hc]
    rfl
  · rw [if_neg hc, if_neg hc]
    rfl

theorem memReviews_cons_skip {row : Row} (t : List Row) {p : String}
    (hφ : row.product ≠ some p) : memReviews (row :: t) p = memReviews t p := by
  unfold memReviews
  rw [List.filter_cons, if_neg (by simpa using hφ)]

theorem memReviews_cons_nan {row : Row} (t : List Row) {p : String}
    (hφ : row.product = some p) (hr : row.review = none) :
    memReviews (row :: t) p = memReviews t p := by
  unfold memReviews
  rw [List.filter_cons, if_pos (by simpa using hφ)]
  simp only [List.filterMap_cons, hr]

theorem memReviews_cons_some {row : Row} (t : List Row) {p r : String}
    (hφ : row.product = some p) (hr : row.review = some r) :
    memReviews (row :: t) p =
      (if pyStrip r ≠ "" ∧ 5 < (pyStrip r).length then [pyStrip r] else []) ++
        memReviews t p := by
  unfold memReviews
  rw [List.filter_cons, if_pos (by simpa using hφ)]
  simp only [List.filterMap_cons, hr]
  by_cases hq : pyStrip r ≠ "" ∧ 5 < (pyStrip r).length
  · rw [if_pos hq, if_pos hq]
    rfl
  · rw [if_neg hq, if_neg hq]
    rfl

theorem chunkSel_eq_memReviews (k : String) :
    ∀ rows : List Row,
      (∀ row ∈ rows, ∃ p, row.product = some p ∧ pyStrip p = p ∧ p ≠ "") →
      chunkSel rows k = memReviews rows k := by
  intro rows
  induction rows with
  | nil => intro _; rfl
  | cons row t ih =>
    intro h
    obtain ⟨p, hp, hstrip, hne⟩ := h row (by simp)
    have ihh := ih (fun r hr => h r (List.mem_cons_of_mem _ hr))
    have hcell : cellStr row.product = p := by rw [hp]; rfl
    rw [chunkSel_cons, hcell, hstrip]
    by_cases hk : p = k
    · subst hk
      cases hr : row.review with
      | none =>
        rw [memReviews_cons_nan t hp hr]
        rw [if_neg ?hcond, List.nil_append]
        · exact ihh
        case hcond =>
          intro hc
          have h3 : (pyStrip (cellStr (none : Option String))).length = 3 := by decide
          have := hc.2.2.2
          omega
      | some r =>
        rw [memReviews_cons_some t hp hr, ihh, show cellStr (some r) = r from rfl]
        congr 1
        by_cases hq : pyStrip r ≠ "" ∧ 5 < (pyStrip r).length
        · rw [if_pos ⟨rfl, hne, hq⟩, if_pos hq]
        · rw [if_neg ?hcond, if_neg hq]
          case hcond =>
            intro hc
            exact hq ⟨hc.2.2.1, hc.2.2.2⟩
    · have hk2 : row.product ≠ some k := by
        rw [hp]
        intro hc
        exact hk (by simpa using hc)
      rw [memReviews_cons_skip t hk2, if_neg (fun hc => hk hc.1), List.nil_append]
      exact ihh

theorem mem_groupKeys_of_memReviews (rows : List Row) (k : String)
    (h : memReviews rows k ≠ []) : k ∈ groupKeys rows := by
  rw [mem_groupKeys]
  unfold memReviews at h
  cases hf : rows.filter (fun row => row.product = some k) with
  | nil => rw [hf] at h; simp at h
  | cons row rest =>
    have hrow : row ∈ rows.filter (fun row => decide (row.product = some k)) := by
      rw [hf]; simp
    have hmem := List.mem_of_mem_filter hrow
    have hprop : row.product = some k := by
      have := List.of_mem_filter hrow
      simpa using this
    rw [List.mem_filterMap]
    exact ⟨row, hmem, hprop⟩

/-- The single-row input on which the two ingestion paths disagree. -/
def rowsC2 : List Row := [⟨some " A ", some "good stuff!"⟩]

/-- C2 counterexample: on a row whose product cell carries surrounding
whitespace, the chunked path strips the product name to A while the
in-memory path groups under the raw value, so the two corpora have different
key sets and the claimed path equivalence fails. -/
theorem claim_C2_counterexample :
    read_chunked rowsC2 ≠ read_inmemory rowsC2 ∧
    listLookup "A" (read_chunked rowsC2) = some ["good stuff!"] ∧
    listLookup "A" (read_inmemory rowsC2) = none ∧
    listLookup " A " (read_inmemory rowsC2) = some ["good stuff!"] := by
  refine ⟨by decide, by decide, by decide, by decide⟩

/-- C2 amended: the chunked and the in-memory Corpus Builder paths agree on
every input whose product cells are present, already-stripped, non-empty
strings (the chunked path strips product names and drops rows with an
empty or missing product, the in-memory path groups by the raw value, so
with raw values already stripped and non-empty the difference vanishes):
under that hypothesis every product key maps to the same review list in
both corpora.  In general the paths differ (see the counterexample). -/
theorem claim_C2_amended (rows : List Row)
    (hrows : ∀ row ∈ rows, ∃ p, row.product = some p ∧ pyStrip p = p ∧ p ≠ "") :
    ∀ k, listLookup k (read_chunked rows) = listLookup k (read_inmemory rows) := by
  intro k
  rw [read_chunked_lookup, read_inmemory_lookup, chunkSel_eq_memReviews k rows hrows]
  by_cases hsel : memReviews rows k = []
  · rw [if_pos hsel, if_neg (fun hc => hc.2 hsel)]
  · rw [if_neg hsel, if_pos ⟨mem_groupKeys_of_memReviews rows k hsel, hsel⟩]

/-- The two-row input of the C2 witness. -/
def rowsC2w : List Row := [⟨some "A", some "  great gadget "⟩, ⟨some "B", some "badbad"⟩]

/-- Witness for the amended C2 on a concrete well-formed input. -/
theorem claim_C2_amended_witness :
    (∀ row ∈ rowsC2w, ∃ p, row.product = some p ∧ pyStrip p = p ∧ p ≠ "") ∧
    ∀ k, listLookup k (read_chunked rowsC2w) = listLookup k (read_inmemory rowsC2w) :=
  have hhyp : ∀ row ∈ rowsC2w, ∃ p, row.product = some p ∧ pyStrip p = p ∧ p ≠ "" := by
    intro row hrow
    rcases List.mem_cons.mp hrow with rfl | hrow'
    · exact ⟨"A", rfl, by decide, by decide⟩
    · rcases List.mem_cons.mp hrow' with rfl | hfalse
      · exact ⟨"B", rfl, by decide, by decide⟩
      · exact absurd hfalse (by simp)
  ⟨hhyp, claim_C2_amended rowsC2w hhyp⟩

/-- The scorer of the C1 counterexample: raises on one specific review. -/
def failingScorer : String → Except String ℚ :=
  fun r => if r = "awful awful thing" then Except.error "boom" else Except.ok 0

/-- The corpus of the C1 counterexample: two products, one of which owns the
review the scorer raises on. -/
def corpusC1 : Corpus := [("A", ["awful awful thing"]), ("B", ["lovely lovely thing"])]

/-- C1 counterexample: with a scorer that raises on one review of product A,
the aggregation does not recover with placeholder summaries: the exception
propagates out of calculate_sentiments, perform_analysis reports Analysis
failed, and neither product A nor the unaffected product B receives any
summary at all, contradicting the claimed placeholder-and-continue
behavior. -/
theorem claim_C1_counterexample :
    calculate_sentimentsE failingScorer 4 corpusC1 = Except.error "boom" ∧
    perform_analysis failingScorer 4 corpusC1 = (none, "Analysis failed") := by
  constructor <;> rfl

/-- C1 amended: when scoring raises for some review of some batch, the
Aggregator aborts the whole run instead of recovering: calculate_sentiments
propagates the exception, perform_analysis catches it, sets the status to
Analysis failed and leaves the results unset, so no product, affected or
not, receives a summary or placeholder. -/
theorem claim_C1_amended (score : String → Except String ℚ) (w : ℕ) (products : Corpus)
    (h : ∃ r ∈ products.flatMap (fun pr => pr.2), isErr (score r) = true) :
    (∃ e, calculate_sentimentsE score w products = Except.error e) ∧
    perform_analysis score w products = (none, "Analysis failed") :=
  ⟨calcE_error score w products h, perform_analysis_error score w products h⟩

/-- Witness for the amended C1 at the concrete failing scorer and corpus. -/
theorem claim_C1_amended_witness :
    (∃ r ∈ corpusC1.flatMap (fun pr => pr.2), isErr (failingScorer r) = true) ∧
    ((∃ e, calculate_sentimentsE failingScorer 4 corpusC1 = Except.error e) ∧
      perform_analysis failingScorer 4 corpusC1 = (none, "Analysis failed")) :=
  ⟨by decide, claim_C1_amended failingScorer 4 corpusC1 (by decide)⟩
